import Mathlib

/-!
Shallow embedding of the toy-cli agent core (`agent.py`, `tools.py`):
the streaming tool-call assembler, the tool-call executor, the
response loop in both transports, and the todo-list manager.
Python dictionaries with optional keys are embedded as structures with
`Option` fields (`none` = key absent); Python string truthiness is the
`≠ ""` test; exceptions are `Except String`.
-/

namespace ToyCli

/-- Python `str.lower()`, modelled characterwise (the agent only applies it
to ASCII model names and status strings). -/
def pyLower (s : String) : String := ⟨s.data.map Char.toLower⟩

/-- Python `str.strip()`, modelled as dropping whitespace from both ends. -/
def pyStrip (s : String) : String :=
  ⟨((s.data.dropWhile Char.isWhitespace).reverse.dropWhile Char.isWhitespace).reverse⟩

/-- Python `needle in haystack` substring test on strings. -/
def containsSub (needle : List Char) : List Char → Bool
  | [] => needle.isEmpty
  | c :: rest => needle.isPrefixOf (c :: rest) || containsSub needle (rest)

/-- The `function` sub-dictionary of an assembled tool call:
`{'name': ..., 'arguments': ...}` (`_response_loop_streaming`, agent.py). -/
structure ToolFunction where
  name : String
  arguments : String
deriving DecidableEq, Repr

/-- An assembled tool call `{'id': ..., 'type': 'function', 'function': {...}}`. -/
structure ToolCall where
  id : String
  type : String
  function : ToolFunction
deriving DecidableEq, Repr

/-- A streamed tool-call fragment
`{index?, id?, function?: {name?, arguments?}}` (delta['tool_calls'][k]). -/
structure FunctionDelta where
  name : Option String
  arguments : Option String
deriving DecidableEq, Repr

/-- One entry of `delta['tool_calls']`; `index` read with `.get('index', 0)`. -/
structure ToolCallDelta where
  index : Option Nat
  id : Option String
  function : Option FunctionDelta
deriving DecidableEq, Repr

/-- One streamed delta `chunk['choices'][0]['delta']`; chunks without
choices are skipped by the loop, so a stream is a list of deltas. -/
structure Delta where
  reasoning_content : Option String
  content : Option String
  tool_calls : Option (List ToolCallDelta)
deriving DecidableEq, Repr

/-- The accumulators of `_response_loop_streaming` for one backend response:
`full_content`, `full_reasoning` and the in-progress `tool_calls` list. -/
structure StreamState where
  full_content : String
  full_reasoning : String
  tool_calls : List ToolCall
deriving DecidableEq, Repr

/-- Applying one `func_delta` to the builder at its index: a non-empty
`name` fragment is written only when the stored name is still empty
(`name` is never concatenated); every non-empty `arguments` fragment is
concatenated (agent.py lines 291-301). -/
def applyFunctionDelta (tc : ToolCall) (fd : FunctionDelta) : ToolCall :=
  let tc :=
    match fd.name with
    | some n =>
        if n ≠ "" then
          if tc.function.name = "" then
            { tc with function := { tc.function with name := n } }
          else tc
        else tc
    | none => tc
  match fd.arguments with
  | some a =>
      if a ≠ "" then
        { tc with function := { tc.function with arguments := tc.function.arguments ++ a } }
      else tc
  | none => tc

/-- Processing one `tool_call_delta` (agent.py lines 276-301): when the
index is at least the current length, exactly one fresh builder is
appended; a subsequent subscript `tool_calls[index]` out of range raises
`IndexError`, embedded as `Except.error`. -/
def processToolCallDelta (tool_calls : List ToolCall) (tcd : ToolCallDelta) :
    Except String (List ToolCall) :=
  let index := tcd.index.getD 0
  let tool_calls :=
    if tool_calls.length ≤ index then
      tool_calls ++ [{ id := tcd.id.getD "", type := "function",
                       function := { name := "", arguments := "" } }]
    else tool_calls
  match tcd.function with
  | none => .ok tool_calls
  | some fd =>
      if h : index < tool_calls.length then
        .ok (tool_calls.set index (applyFunctionDelta (tool_calls.get ⟨index, h⟩) fd))
      else .error "IndexError: list index out of range"

/-- The reasoning block of the delta loop (agent.py lines 263-266): a
present non-empty `reasoning_content` fragment is concatenated. -/
def applyReasoningDelta (st : StreamState) (o : Option String) : StreamState :=
  match o with
  | some s => if s ≠ "" then { st with full_reasoning := st.full_reasoning ++ s } else st
  | none => st

/-- The content block of the delta loop (agent.py lines 269-272). -/
def applyContentDelta (st : StreamState) (o : Option String) : StreamState :=
  match o with
  | some s => if s ≠ "" then { st with full_content := st.full_content ++ s } else st
  | none => st

/-- Processing one streamed delta (agent.py lines 260-301): non-empty
`reasoning_content` and `content` fragments are concatenated into their
own accumulators; each tool-call fragment updates the builder list. -/
def processDelta (st : StreamState) (delta : Delta) : Except String StreamState :=
  let st := applyReasoningDelta st delta.reasoning_content
  let st := applyContentDelta st delta.content
  match delta.tool_calls with
  | some tcds =>
      if tcds ≠ [] then do
        let tcs ← tcds.foldlM processToolCallDelta st.tool_calls
        .ok { st with tool_calls := tcs }
      else .ok st
  | none => .ok st

/-- The stream assembler: fold of `processDelta` over the delta sequence
starting from empty accumulators. -/
def assembleStream (deltas : List Delta) : Except String StreamState :=
  deltas.foldlM processDelta { full_content := "", full_reasoning := "", tool_calls := [] }

/-- A Python value returned by a tool capability: either a string, or a
non-string value represented by its `json.dumps` encoding (the encoding
itself being stdlib behaviour, the value carries it). -/
inductive PyValue where
  | str : String → PyValue
  | other : String → PyValue
deriving DecidableEq, Repr

/-- Outcome of invoking a tool capability: normal return, or a raised
exception carrying `str(e)`. -/
inductive ToolOutcome where
  | ret : PyValue → ToolOutcome
  | exn : String → ToolOutcome
deriving DecidableEq, Repr

/-- A parsed argument mapping (the keyword arguments a capability is
invoked with); the empty mapping is `[]`. -/
abbrev Args := List (String × String)

/-- A registered tool capability behind the registry. -/
abbrev Capability := Args → ToolOutcome

/-- `Agent._execute_tool` (agent.py lines 102-114): registry miss yields
the literal not-found text; a string result is returned as is; a
non-string result is returned JSON-encoded; a raised exception is
converted to the literal error text. Always returns one string. -/
def execute_tool (tool_map : String → Option Capability) (tool_name : String)
    (arguments : Args) : String :=
  match tool_map tool_name with
  | none => "Error: Tool " ++ tool_name ++ " not found"
  | some tool_func =>
      match tool_func arguments with
      | .ret (.str s) => s
      | .ret (.other j) => j
      | .exn e => "Error executing " ++ tool_name ++ ": " ++ e

/-- A conversation message dict; absent keys are `none`.  Assistant
messages always carry `content`; `tool` messages carry `tool_call_id`. -/
structure Message where
  role : String
  content : String
  reasoning_content : Option String
  tool_calls : Option (List ToolCall)
  tool_call_id : Option String
deriving DecidableEq, Repr

/-- The raw argument string handed to `json.loads`:
`function.get('arguments', '{}') or '{}'` (empty string falls back to
the empty-object literal). -/
def rawArgs (tc : ToolCall) : String :=
  if tc.function.arguments = "" then "\x7b\x7d" else tc.function.arguments

/-- The tool message appended for one call by `_process_tool_calls`
(agent.py lines 123-147): arguments are parsed with `json.loads`
(embedded as the parameter `jsonParse`; parse failure falls back to the
empty mapping), the tool is executed, and the result becomes the
content of a `tool` message tagged with the call's id. -/
def toolMessage (jsonParse : String → Option Args)
    (tool_map : String → Option Capability) (tc : ToolCall) : Message :=
  { role := "tool",
    content := execute_tool tool_map tc.function.name ((jsonParse (rawArgs tc)).getD []),
    reasoning_content := none, tool_calls := none, tool_call_id := some tc.id }

/-- `Agent._process_tool_calls` (agent.py lines 116-149): one tool
message per call in declaration order; the `used_todo` flag is set when
a call is named `run_todo`. -/
def process_tool_calls (jsonParse : String → Option Args)
    (tool_map : String → Option Capability) :
    List ToolCall → Bool → List Message × Bool
  | [], used_todo => ([], used_todo)
  | tc :: rest, used_todo =>
      let used_todo := used_todo || (tc.function.name == "run_todo")
      let (ms, u) := process_tool_calls jsonParse tool_map rest used_todo
      (toolMessage jsonParse tool_map tc :: ms, u)

/-- `Agent._update_rounds_counter` (agent.py lines 151-158). -/
def update_rounds_counter (used_todo : Bool) (rounds_without_todo : Nat) : Nat :=
  if used_todo then 0 else rounds_without_todo + 1

/-- The normalized message of one batch response,
`response['choices'][0]['message']`. -/
structure ResponseMessage where
  content : Option String
  reasoning_content : Option String
  tool_calls : Option (List ToolCall)
deriving DecidableEq, Repr

/-- Python `x or ""` on an optional string field. -/
def orEmptyStr : Option String → String
  | some s => s
  | none => ""

/-- Python `x or []` on an optional list field (`some []` is falsy and
also yields `[]`). -/
def orEmptyList : Option (List ToolCall) → List ToolCall
  | some l => l
  | none => []

/-- The assistant message appended each round (agent.py lines 212-217 and
307-312): `content` always present, `reasoning_content` attached only
when non-empty, `tool_calls` attached only when non-empty. -/
def assistant_message (content reasoning : String) (tool_calls : List ToolCall) : Message :=
  { role := "assistant", content := content,
    reasoning_content := if reasoning = "" then none else some reasoning,
    tool_calls := if tool_calls = [] then none else some tool_calls,
    tool_call_id := none }

/-- `Agent._response_loop_non_streaming` (agent.py lines 191-234).  The
backend is embedded as the list of response messages it would produce in
order; running out of responses while the loop still needs one is `none`.
The function carries `used_todo_this_turn` and the rounds counter and
returns the final messages, flag and updated counter. -/
def response_loop_non_streaming (jsonParse : String → Option Args)
    (tool_map : String → Option Capability) :
    List ResponseMessage → List Message → Bool → Nat →
    Option (List Message × Bool × Nat)
  | [], _, _, _ => none
  | rm :: rest, messages, used_todo_this_turn, rounds_without_todo =>
      let tool_calls := orEmptyList rm.tool_calls
      let content := orEmptyStr rm.content
      let reasoning := orEmptyStr rm.reasoning_content
      let messages := messages ++ [assistant_message content reasoning tool_calls]
      if tool_calls = [] then
        some (messages, used_todo_this_turn,
              update_rounds_counter used_todo_this_turn rounds_without_todo)
      else
        let (tool_messages, used) :=
          process_tool_calls jsonParse tool_map tool_calls used_todo_this_turn
        response_loop_non_streaming jsonParse tool_map rest
          (messages ++ tool_messages) used rounds_without_todo

/-- `Agent._response_loop_streaming` (agent.py lines 236-324).  The
backend is embedded as the list of delta sequences it would stream, one
per round; an exception escaping the assembler propagates (`.error`),
and running out of rounds is `.ok none`. -/
def response_loop_streaming (jsonParse : String → Option Args)
    (tool_map : String → Option Capability) :
    List (List Delta) → List Message → Bool → Nat →
    Except String (Option (List Message × Bool × Nat))
  | [], _, _, _ => .ok none
  | deltas :: rest, messages, used_todo_this_turn, rounds_without_todo =>
      match assembleStream deltas with
      | .error e => .error e
      | .ok st =>
          let messages :=
            messages ++ [assistant_message st.full_content st.full_reasoning st.tool_calls]
          if st.tool_calls = [] then
            .ok (some (messages, used_todo_this_turn,
                       update_rounds_counter used_todo_this_turn rounds_without_todo))
          else
            let (tool_messages, used) :=
              process_tool_calls jsonParse tool_map st.tool_calls used_todo_this_turn
            response_loop_streaming jsonParse tool_map rest
              (messages ++ tool_messages) used rounds_without_todo

/-- `Agent._is_reasoner` (agent.py lines 26-27):
`"reasoner" in (self.llm.model or "").lower()`. -/
def is_reasoner (model : Option String) : Bool :=
  containsSub "reasoner".data (pyLower (orEmptyStr model)).data

/-- `Agent._strip_reasoning_from_history` (agent.py lines 29-44): each
message carrying a `reasoning_content` key is replaced by a copy without
it; other messages and the order are unchanged. -/
def strip_reasoning_from_history (history : List Message) : List Message :=
  if history.isEmpty then history
  else
    history.map fun m =>
      if m.reasoning_content.isSome then { m with reasoning_content := none } else m

/-- The history preparation and user-message append at the top of
`Agent.response_loop` (agent.py lines 173-184). -/
def response_loop_setup (model : Option String) (user_input : String)
    (history : List Message) : List Message :=
  let history := if is_reasoner model then strip_reasoning_from_history history else history
  history ++ [{ role := "user", content := user_input, reasoning_content := none,
                tool_calls := none, tool_call_id := none }]

/-- One item of the list submitted to `TodoManager.update`; keys may be
absent (`item.get` defaults: content `""`, status `"pending"`,
activeForm `""`). -/
structure TodoItemIn where
  content : Option String
  status : Option String
  activeForm : Option String
deriving DecidableEq, Repr

/-- One validated stored todo item (tools.py lines 382-386). -/
structure TodoItem where
  content : String
  status : String
  activeForm : String
deriving DecidableEq, Repr

/-- Field extraction and per-item validation of `TodoManager.update`
(tools.py lines 365-386): content and activeForm are stripped and must
be non-empty, status is lowercased and must be one of the three enum
values.  The in-progress count contribution is the returned flag. -/
def validateTodoItem (i : Nat) (item : TodoItemIn) : Except String TodoItem :=
  let content := pyStrip (item.content.getD "")
  let status := pyLower (item.status.getD "pending")
  let active_form := pyStrip (item.activeForm.getD "")
  if content = "" then .error ("Item " ++ toString i ++ ": content required")
  else if status ≠ "pending" ∧ status ≠ "in_progress" ∧ status ≠ "completed" then
    .error ("Item " ++ toString i ++ ": invalid status " ++ status)
  else if active_form = "" then .error ("Item " ++ toString i ++ ": activeForm required")
  else .ok { content := content, status := status, activeForm := active_form }

/-- The validation loop of `TodoManager.update`: items validated in
order (first failure raises), with the running in-progress count. -/
def validateTodoItems : Nat → List TodoItemIn → Except String (List TodoItem × Nat)
  | _, [] => .ok ([], 0)
  | i, item :: rest => do
      let v ← validateTodoItem i item
      let (vs, c) ← validateTodoItems (i + 1) rest
      .ok (v :: vs, (if v.status = "in_progress" then 1 else 0) + c)

/-- `TodoManager.render` (tools.py lines 397-426). -/
def todoRender (items : List TodoItem) : String :=
  if items = [] then "No todos."
  else
    let lines := items.map fun item =>
      if item.status = "completed" then "[x] " ++ item.content
      else if item.status = "in_progress" then
        "[>] " ++ item.content ++ " <- " ++ item.activeForm
      else "[ ] " ++ item.content
    let completed := (items.filter fun t => t.status = "completed").length
    let lines := lines ++
      ["\n(" ++ toString completed ++ "/" ++ toString items.length ++ " completed)"]
    String.intercalate "\n" lines

/-- `TodoManager.update` (tools.py lines 346-395): validate every item,
then enforce the size cap and the single-in-progress constraint; on
success the validated list is the new stored list and the rendered view
is returned.  The stored list is not touched on any error path. -/
def todoUpdate (items : List TodoItemIn) : Except String (List TodoItem × String) := do
  let (validated, in_progress_count) := ← validateTodoItems 0 items
  if validated.length > 20 then .error "Max 20 todos allowed"
  else if in_progress_count > 1 then .error "Only one task can be in_progress at a time"
  else .ok (validated, "\n" ++ todoRender validated)

/-- `run_todo` (tools.py lines 433-443) as a transformer of the stored
list: a validation error is caught and rendered as an error string,
leaving the stored list unchanged; success replaces it wholesale. -/
def run_todo (stored : List TodoItem) (items : List TodoItemIn) :
    List TodoItem × String :=
  match todoUpdate items with
  | .ok (new_items, view) => (new_items, view)
  | .error e => (stored, "Error: " ++ e)

/-- The stored lists reachable from the initial empty `TodoManager`
state by `run_todo` calls. -/
inductive TodoReachable : List TodoItem → Prop where
  | init : TodoReachable []
  | step (s : List TodoItem) (items : List TodoItemIn) :
      TodoReachable s → TodoReachable (run_todo s items).1

/-! ### Helper lemmas -/

lemma exceptOkBind {α β : Type} (a : α) (f : α → Except String β) :
    (Except.ok a >>= f) = f a := rfl

/-- The name written by one function fragment: a non-empty fragment is
kept only when the stored name is still empty. -/
lemma applyFunctionDelta_name (tc : ToolCall) (fd : FunctionDelta) :
    (applyFunctionDelta tc fd).function.name =
      match fd.name with
      | some n => if n ≠ "" ∧ tc.function.name = "" then n else tc.function.name
      | none => tc.function.name := by
  rcases fd with ⟨n, a⟩
  cases n <;> cases a <;> simp only [applyFunctionDelta] <;> split_ifs <;> simp_all

lemma applyFunctionDelta_arguments (tc : ToolCall) (fd : FunctionDelta) :
    (applyFunctionDelta tc fd).function.arguments =
      tc.function.arguments ++ (fd.arguments.getD "") := by
  rcases fd with ⟨n, a⟩
  cases n <;> cases a <;> simp only [applyFunctionDelta, Option.getD] <;>
    (try split_ifs) <;> simp_all [String.append_empty]

lemma applyFunctionDelta_id (tc : ToolCall) (fd : FunctionDelta) :
    (applyFunctionDelta tc fd).id = tc.id := by
  rcases fd with ⟨n, a⟩
  cases n <;> cases a <;> simp only [applyFunctionDelta] <;> split_ifs <;> simp_all

lemma applyFunctionDelta_type (tc : ToolCall) (fd : FunctionDelta) :
    (applyFunctionDelta tc fd).type = tc.type := by
  rcases fd with ⟨n, a⟩
  cases n <;> cases a <;> simp only [applyFunctionDelta] <;> split_ifs <;> simp_all

/-- The first non-empty name fragment of a fragment sequence ("" when
none carries one). -/
def firstNonemptyName : List FunctionDelta → String
  | [] => ""
  | fd :: rest =>
      match fd.name with
      | some n => if n ≠ "" then n else firstNonemptyName rest
      | none => firstNonemptyName rest

lemma foldl_applyFunctionDelta_name (fds : List FunctionDelta) :
    ∀ tc : ToolCall,
      (fds.foldl applyFunctionDelta tc).function.name =
        if tc.function.name = "" then firstNonemptyName fds else tc.function.name := by
  induction fds with
  | nil =>
      intro tc
      simp only [List.foldl_nil, firstNonemptyName]
      split_ifs with h
      · exact h
      · rfl
  | cons fd fds ih =>
      intro tc
      rw [List.foldl_cons, ih]
      rcases hn : fd.name with _ | n
      · simp [firstNonemptyName, hn, applyFunctionDelta_name, hn]
      · by_cases hne : n = ""
        · subst hne
          simp [firstNonemptyName, hn, applyFunctionDelta_name, hn]
        · by_cases htc : tc.function.name = ""
          · have : (applyFunctionDelta tc fd).function.name = n := by
              rw [applyFunctionDelta_name, hn]; simp [hne, htc]
            simp [this, firstNonemptyName, hn, hne, htc]
          · have : (applyFunctionDelta tc fd).function.name = tc.function.name := by
              rw [applyFunctionDelta_name, hn]; simp [htc]
            simp [this, htc]

lemma foldl_applyFunctionDelta_arguments (fds : List FunctionDelta) :
    ∀ tc : ToolCall,
      (fds.foldl applyFunctionDelta tc).function.arguments =
        fds.foldl (fun a fd => a ++ fd.arguments.getD "") tc.function.arguments := by
  induction fds with
  | nil => intro tc; simp
  | cons fd fds ih =>
      intro tc
      rw [List.foldl_cons, ih, List.foldl_cons, applyFunctionDelta_arguments]

lemma foldl_applyFunctionDelta_id (fds : List FunctionDelta) :
    ∀ tc : ToolCall, (fds.foldl applyFunctionDelta tc).id = tc.id := by
  induction fds with
  | nil => intro tc; rfl
  | cons fd fds ih => intro tc; rw [List.foldl_cons, ih, applyFunctionDelta_id]

/-- **C3.** For every fragment sequence and every tool-call index, the
first non-empty `name` fragment seen for that index sets the call's name
permanently (later name fragments are neither concatenated nor
overwritten), every non-empty `arguments` fragment is concatenated in
arrival order (an empty or absent one contributes nothing), the call's
id is untouched by fragments — and a fragment aimed at an existing index
updates exactly the builder at that index via `applyFunctionDelta`. -/
theorem name_first_write_args_concat :
    (∀ (tc : ToolCall) (fds : List FunctionDelta),
        (fds.foldl applyFunctionDelta tc).function.name =
          (if tc.function.name = "" then firstNonemptyName fds else tc.function.name) ∧
        (fds.foldl applyFunctionDelta tc).function.arguments =
          fds.foldl (fun a fd => a ++ fd.arguments.getD "") tc.function.arguments ∧
        (fds.foldl applyFunctionDelta tc).id = tc.id) ∧
    (∀ (tool_calls : List ToolCall) (tcd : ToolCallDelta) (fd : FunctionDelta),
        tcd.function = some fd →
        ∀ h : tcd.index.getD 0 < tool_calls.length,
          processToolCallDelta tool_calls tcd =
            .ok (tool_calls.set (tcd.index.getD 0)
              (applyFunctionDelta (tool_calls.get ⟨tcd.index.getD 0, h⟩) fd))) := by
  constructor
  · intro tc fds
    exact ⟨foldl_applyFunctionDelta_name fds tc,
           foldl_applyFunctionDelta_arguments fds tc,
           foldl_applyFunctionDelta_id fds tc⟩
  · intro tool_calls tcd fd hfd h
    simp only [processToolCallDelta, hfd]
    rw [if_neg (Nat.not_le.mpr h), dif_pos h]

/-- Witness for C3: a concrete in-range fragment applied to a concrete
builder list. -/
theorem name_first_write_args_concat_witness :
    processToolCallDelta
        [{ id := "c0", type := "function", function := { name := "run_bash", arguments := "\x7b" } }]
        { index := some 0, id := none,
          function := some { name := some "echo", arguments := some "\x7d" } } =
      .ok [{ id := "c0", type := "function",
             function := { name := "run_bash", arguments := "\x7b\x7d" } }] :=
  name_first_write_args_concat.2
    [{ id := "c0", type := "function", function := { name := "run_bash", arguments := "\x7b" } }]
    { index := some 0, id := none,
      function := some { name := some "echo", arguments := some "\x7d" } }
    { name := some "echo", arguments := some "\x7d" } rfl (by decide)

/-- **C4 counterexample.** With the name fragment sequence
`["run_", "bash", "run_bash"]` the assembled name is the first fragment
`"run_"` and not `"run_bash"`: the claim's expected value is refuted at
this concrete input. -/
theorem split_name_not_run_bash :
    ¬ (([{ name := some "run_", arguments := none },
         { name := some "bash", arguments := none },
         { name := some "run_bash", arguments := none }].foldl applyFunctionDelta
          { id := "c1", type := "function",
            function := { name := "", arguments := "" } }).function.name = "run_bash") := by
  decide

/-- **C4 (amended).** The first non-empty name fragment wins: the split
sequence `["run_", "bash"]` plus a spurious `["run_bash"]` assembles to
name `"run_"`, while a whole-name fragment `["run_bash"]` followed by a
spurious duplicate `["run_bash"]` yields `"run_bash"` exactly once. -/
theorem name_policy_on_fragments :
    (([{ name := some "run_", arguments := none },
       { name := some "bash", arguments := none },
       { name := some "run_bash", arguments := none }].foldl applyFunctionDelta
        { id := "c1", type := "function",
          function := { name := "", arguments := "" } }).function.name = "run_") ∧
    (([{ name := some "run_bash", arguments := none },
       { name := some "run_bash", arguments := none }].foldl applyFunctionDelta
        { id := "c1", type := "function",
          function := { name := "", arguments := "" } }).function.name = "run_bash") := by
  constructor <;> decide

/-! ### In-order index discipline for the stream assembler -/

/-- Effect of one tool-call fragment on the builder-list length under
in-order arrival: an index below the current length leaves it, an index
equal to the current length allocates one builder, a larger index is out
of order (`none`). -/
def tcdStep (len : Nat) (tcd : ToolCallDelta) : Option Nat :=
  let i := tcd.index.getD 0
  if i < len then some len else if i = len then some (len + 1) else none

def tcdsRun (len : Nat) : List ToolCallDelta → Option Nat
  | [] => some len
  | tcd :: rest =>
      match tcdStep len tcd with
      | some len2 => tcdsRun len2 rest
      | none => none

def deltaRun (len : Nat) (delta : Delta) : Option Nat :=
  match delta.tool_calls with
  | some tcds => if tcds ≠ [] then tcdsRun len tcds else some len
  | none => some len

/-- Running builder-list count over a whole stream; `some n` exactly
when every tool-call index on first sight equals the current length
(contiguous in-order arrival), `n` being the number of distinct indices
seen. -/
def streamRun : Nat → List Delta → Option Nat
  | len, [] => some len
  | len, d :: ds =>
      match deltaRun len d with
      | some len2 => streamRun len2 ds
      | none => none

lemma foldlM_processToolCallDelta_ok (tcds : List ToolCallDelta) :
    ∀ (len n : Nat) (tcs : List ToolCall), tcs.length = len →
      tcdsRun len tcds = some n →
      ∃ tcs', List.foldlM processToolCallDelta tcs tcds = .ok tcs' ∧ tcs'.length = n := by
  induction tcds with
  | nil =>
      intro len n tcs hlen hrun
      simp only [tcdsRun, Option.some.injEq] at hrun
      exact ⟨tcs, rfl, by omega⟩
  | cons tcd rest ih =>
      intro len n tcs hlen hrun
      simp only [tcdsRun, tcdStep] at hrun
      by_cases hlt : tcd.index.getD 0 < len
      · rw [if_pos hlt] at hrun
        have hnotle : ¬ tcs.length ≤ tcd.index.getD 0 := by omega
        rcases hf : tcd.function with _ | fd
        · have hstep : processToolCallDelta tcs tcd = .ok tcs := by
            simp only [processToolCallDelta, hf]
            rw [if_neg hnotle]
          obtain ⟨tcs', h1, h2⟩ := ih len n tcs hlen hrun
          exact ⟨tcs', by rw [List.foldlM_cons, hstep, exceptOkBind, h1], h2⟩
        · have hlt' : tcd.index.getD 0 < tcs.length := by omega
          have hstep : processToolCallDelta tcs tcd =
              .ok (tcs.set (tcd.index.getD 0)
                (applyFunctionDelta (tcs.get ⟨tcd.index.getD 0, hlt'⟩) fd)) := by
            simp only [processToolCallDelta, hf]
            rw [if_neg hnotle, dif_pos hlt']
          obtain ⟨tcs', h1, h2⟩ :=
            ih len n (tcs.set (tcd.index.getD 0)
              (applyFunctionDelta (tcs.get ⟨tcd.index.getD 0, hlt'⟩) fd))
              (by simp [hlen]) hrun
          exact ⟨tcs', by rw [List.foldlM_cons, hstep, exceptOkBind, h1], h2⟩
      · by_cases heq : tcd.index.getD 0 = len
        · rw [if_neg hlt, if_pos heq] at hrun
          have hle : tcs.length ≤ tcd.index.getD 0 := by omega
          set nb : ToolCall :=
            { id := tcd.id.getD "", type := "function",
              function := { name := "", arguments := "" } } with hnb
          have hlen2 : (tcs ++ [nb]).length = len + 1 := by simp [hlen]
          rcases hf : tcd.function with _ | fd
          · have hstep : processToolCallDelta tcs tcd = .ok (tcs ++ [nb]) := by
              simp only [processToolCallDelta, hf]
              rw [if_pos hle]
            obtain ⟨tcs', h1, h2⟩ := ih (len + 1) n (tcs ++ [nb]) hlen2 hrun
            exact ⟨tcs', by rw [List.foldlM_cons, hstep, exceptOkBind, h1], h2⟩
          · have hlt' : tcd.index.getD 0 < (tcs ++ [nb]).length := by omega
            have hstep : processToolCallDelta tcs tcd =
                .ok ((tcs ++ [nb]).set (tcd.index.getD 0)
                  (applyFunctionDelta ((tcs ++ [nb]).get ⟨tcd.index.getD 0, hlt'⟩) fd)) := by
              simp only [processToolCallDelta, hf]
              rw [if_pos hle, dif_pos hlt']
            obtain ⟨tcs', h1, h2⟩ :=
              ih (len + 1) n ((tcs ++ [nb]).set (tcd.index.getD 0)
                (applyFunctionDelta ((tcs ++ [nb]).get ⟨tcd.index.getD 0, hlt'⟩) fd))
                (by simp [hlen]) hrun
            exact ⟨tcs', by rw [List.foldlM_cons, hstep, exceptOkBind, h1], h2⟩
        · rw [if_neg hlt, if_neg heq] at hrun
          exact absurd hrun (by simp)

lemma applyReasoningDelta_tool_calls (st : StreamState) (o : Option String) :
    (applyReasoningDelta st o).tool_calls = st.tool_calls := by
  rcases o with _ | s
  · rfl
  · simp only [applyReasoningDelta]; split_ifs <;> rfl

lemma applyContentDelta_tool_calls (st : StreamState) (o : Option String) :
    (applyContentDelta st o).tool_calls = st.tool_calls := by
  rcases o with _ | s
  · rfl
  · simp only [applyContentDelta]; split_ifs <;> rfl

lemma processDelta_ok (d : Delta) (st : StreamState) (len n : Nat)
    (hlen : st.tool_calls.length = len) (hrun : deltaRun len d = some n) :
    ∃ st', processDelta st d = .ok st' ∧ st'.tool_calls.length = n := by
  have htext : (applyContentDelta (applyReasoningDelta st d.reasoning_content)
      d.content).tool_calls = st.tool_calls := by
    rw [applyContentDelta_tool_calls, applyReasoningDelta_tool_calls]
  rcases htc : d.tool_calls with _ | tcds
  · simp only [deltaRun, htc, Option.some.injEq] at hrun
    refine ⟨applyContentDelta (applyReasoningDelta st d.reasoning_content) d.content, ?_, ?_⟩
    · simp only [processDelta, htc]
    · rw [htext, hlen, hrun]
  · simp only [deltaRun, htc] at hrun
    by_cases hne : tcds = []
    · subst hne
      rw [if_neg fun h => h rfl, Option.some_inj] at hrun
      refine ⟨applyContentDelta (applyReasoningDelta st d.reasoning_content) d.content, ?_, ?_⟩
      · simp only [processDelta, htc]
        rw [if_neg fun h => h rfl]
      · rw [htext, hlen, hrun]
    · rw [if_pos hne] at hrun
      obtain ⟨tcs', hfold, hlen'⟩ :=
        foldlM_processToolCallDelta_ok tcds len n
          (applyContentDelta (applyReasoningDelta st d.reasoning_content) d.content).tool_calls
          (by rw [htext, hlen]) hrun
      refine ⟨{ applyContentDelta (applyReasoningDelta st d.reasoning_content) d.content
                  with tool_calls := tcs' }, ?_, hlen'⟩
      simp only [processDelta, htc]
      rw [if_pos hne, hfold]
      rfl

lemma foldlM_processDelta_ok (deltas : List Delta) :
    ∀ (st : StreamState) (len n : Nat), st.tool_calls.length = len →
      streamRun len deltas = some n →
      ∃ st', List.foldlM processDelta st deltas = .ok st' ∧ st'.tool_calls.length = n := by
  induction deltas with
  | nil =>
      intro st len n hlen hrun
      simp only [streamRun, Option.some.injEq] at hrun
      exact ⟨st, rfl, by omega⟩
  | cons d ds ih =>
      intro st len n hlen hrun
      simp only [streamRun] at hrun
      rcases hd : deltaRun len d with _ | len2
      · rw [hd] at hrun; exact absurd hrun (by simp)
      · rw [hd] at hrun
        obtain ⟨st1, h1, hlen1⟩ := processDelta_ok d st len len2 hlen hd
        obtain ⟨st', h2, hlen'⟩ := ih st1 len2 n hlen1 hrun
        exact ⟨st', by rw [List.foldlM_cons, h1, exceptOkBind, h2], hlen'⟩

/-- **C1 counterexample.** The claim fails on the code at an explicit
out-of-order stream.  First: a single delta whose only tool-call
fragment carries index 1 (before any index-0 fragment) and a `function`
field makes the assembler raise `IndexError` — it does not complete.
Second: when index 1 first arrives without a `function` field and index
0 fragments follow, both distinct indices end in ONE record whose `id`
came from the index-1 fragment and whose name came from the index-0
fragment — a call is lost and misassigned. -/
theorem stream_out_of_order_index_fails :
    (assembleStream
        [{ reasoning_content := none, content := none,
           tool_calls := some [{ index := some 1, id := some "call_b",
                                 function := some { name := some "f", arguments := none } }] }] =
      .error "IndexError: list index out of range") ∧
    (assembleStream
        [{ reasoning_content := none, content := none,
           tool_calls := some [{ index := some 1, id := some "call_b", function := none }] },
         { reasoning_content := none, content := none,
           tool_calls := some [{ index := some 0, id := some "call_a",
                                 function := some { name := some "f",
                                                    arguments := some "\x7b\x7d" } }] }] =
      .ok { full_content := "", full_reasoning := "",
            tool_calls := [{ id := "call_b", type := "function",
                             function := { name := "f", arguments := "\x7b\x7d" } }] }) :=
  ⟨rfl, rfl⟩

/-- **C1 (amended).** For every streamed delta sequence whose tool-call
indices are contiguous and in order on first sight (each first-seen
index equals the current builder-list length — the shape the assembler
actually supports), assembly completes without error and the finalized
list holds exactly one record per distinct index that appeared. -/
theorem stream_in_order_assembles (deltas : List Delta) (n : Nat)
    (hrun : streamRun 0 deltas = some n) :
    ∃ st, assembleStream deltas = .ok st ∧ st.tool_calls.length = n := by
  exact foldlM_processDelta_ok deltas
    { full_content := "", full_reasoning := "", tool_calls := [] } 0 n rfl hrun

/-- Witness for the amended C1: a two-call in-order stream assembles to
two records. -/
theorem stream_in_order_assembles_witness :
    streamRun 0
        [{ reasoning_content := none, content := none,
           tool_calls := some [{ index := some 0, id := some "call_a",
                                 function := some { name := some "f", arguments := none } }] },
         { reasoning_content := none, content := none,
           tool_calls := some [{ index := some 1, id := some "call_b",
                                 function := some { name := some "g", arguments := none } }] }] =
      some 2 ∧
    ∃ st, assembleStream
        [{ reasoning_content := none, content := none,
           tool_calls := some [{ index := some 0, id := some "call_a",
                                 function := some { name := some "f", arguments := none } }] },
         { reasoning_content := none, content := none,
           tool_calls := some [{ index := some 1, id := some "call_b",
                                 function := some { name := some "g", arguments := none } }] }] =
      .ok st ∧ st.tool_calls.length = 2 :=
  ⟨rfl, stream_in_order_assembles _ 2 rfl⟩

/-! ### Chunking invariance (C2) -/

/-- Concatenation of a list of string pieces in order. -/
def concatL (ps : List String) : String := ps.foldl (· ++ ·) ""

/-- A delta carrying only a `content` piece. -/
def contentDelta (s : String) : Delta :=
  { reasoning_content := none, content := some s, tool_calls := none }

/-- A delta carrying only a `reasoning_content` piece. -/
def reasoningDelta (s : String) : Delta :=
  { reasoning_content := some s, content := none, tool_calls := none }

/-- The opening fragment of tool call `i`: index, id and the whole name. -/
def headCallDelta (i : Nat) (id name : String) : Delta :=
  { reasoning_content := none, content := none,
    tool_calls := some [{ index := some i, id := some id,
                          function := some { name := some name, arguments := none } }] }

/-- A later fragment of tool call `i` carrying one `arguments` piece. -/
def argDelta (i : Nat) (s : String) : Delta :=
  { reasoning_content := none, content := none,
    tool_calls := some [{ index := some i, id := none,
                          function := some { name := none, arguments := some s } }] }

/-- The delta sequence streaming call `i` with its arguments split into
the pieces `ps`. -/
def callDeltas (i : Nat) (id name : String) (ps : List String) : List Delta :=
  headCallDelta i id name :: ps.map (argDelta i)

/-- The delta sequences of a list of calls `(id, name, argument pieces)`
streamed in index order starting at `i`. -/
def callsDeltas : Nat → List (String × String × List String) → List Delta
  | _, [] => []
  | i, (id, name, ps) :: rest => callDeltas i id name ps ++ callsDeltas (i + 1) rest

/-- One chunking of a fixed backend output: the reasoning pieces, then
the content pieces, then each call's fragments in index order, each
string split at arbitrary granularity. -/
def chunkedDeltas (rs cs : List String) (calls : List (String × String × List String)) :
    List Delta :=
  rs.map reasoningDelta ++ cs.map contentDelta ++ callsDeltas 0 calls

/-- The finalized record of one call of the backend output. -/
def finalToolCall : String × String × List String → ToolCall
  | (id, name, ps) =>
    { id := id, type := "function", function := { name := name, arguments := concatL ps } }

lemma foldlM_reasoningDeltas (rs : List String) :
    ∀ st : StreamState,
      List.foldlM processDelta st (rs.map reasoningDelta) =
        .ok { st with full_reasoning := rs.foldl (· ++ ·) st.full_reasoning } := by
  induction rs with
  | nil => intro st; rfl
  | cons r rs ih =>
      intro st
      rw [List.map_cons, List.foldlM_cons]
      by_cases hr : r = ""
      · subst hr
        have h1 : processDelta st (reasoningDelta "") = .ok st := rfl
        rw [h1, exceptOkBind, ih, List.foldl_cons, String.append_empty]
      · have h1 : processDelta st (reasoningDelta r) =
            .ok { st with full_reasoning := st.full_reasoning ++ r } := by
          simp [processDelta, reasoningDelta, applyReasoningDelta, applyContentDelta, hr]
        rw [h1, exceptOkBind, ih, List.foldl_cons]

lemma foldlM_contentDeltas (cs : List String) :
    ∀ st : StreamState,
      List.foldlM processDelta st (cs.map contentDelta) =
        .ok { st with full_content := cs.foldl (· ++ ·) st.full_content } := by
  induction cs with
  | nil => intro st; rfl
  | cons c cs ih =>
      intro st
      rw [List.map_cons, List.foldlM_cons]
      by_cases hc : c = ""
      · subst hc
        have h1 : processDelta st (contentDelta "") = .ok st := rfl
        rw [h1, exceptOkBind, ih, List.foldl_cons, String.append_empty]
      · have h1 : processDelta st (contentDelta c) =
            .ok { st with full_content := st.full_content ++ c } := by
          simp [processDelta, contentDelta, applyReasoningDelta, applyContentDelta, hc]
        rw [h1, exceptOkBind, ih, List.foldl_cons]

/-- A fully explicit tool-call record, used to state the assembler
lemmas without nested structure literals. -/
def builtCall (id name args : String) : ToolCall :=
  { id := id, type := "function", function := { name := name, arguments := args } }

/-- Generalized update step of `processToolCallDelta`: with the gap-fill
list abstracted as `L`, a fragment carrying a function field updates the
builder at its index. -/
lemma processToolCallDelta_set (tool_calls : List ToolCall) (tcd : ToolCallDelta)
    (fd : FunctionDelta) (hfd : tcd.function = some fd) (L : List ToolCall)
    (hL : (if tool_calls.length ≤ tcd.index.getD 0
           then tool_calls ++ [builtCall (tcd.id.getD "") "" ""]
           else tool_calls) = L)
    (h : tcd.index.getD 0 < L.length) :
    processToolCallDelta tool_calls tcd =
      .ok (L.set (tcd.index.getD 0)
        (applyFunctionDelta (L.get ⟨tcd.index.getD 0, h⟩) fd)) := by
  subst hL
  simp only [builtCall] at h ⊢
  simp only [processToolCallDelta, hfd]
  rw [dif_pos h]

lemma processToolCallDelta_last (tcs : List ToolCall) (b : ToolCall)
    (fd : FunctionDelta) (oid : Option String) :
    processToolCallDelta (tcs ++ [b]) { index := some tcs.length, id := oid, function := some fd } =
      .ok (tcs ++ [applyFunctionDelta b fd]) := by
  have hlt : tcs.length < (tcs ++ [b]).length := by simp
  rw [processToolCallDelta_set (tcs ++ [b])
        { index := some tcs.length, id := oid, function := some fd }
        fd rfl (tcs ++ [b]) (by simp) hlt]
  show Except.ok ((tcs ++ [b]).set tcs.length
      (applyFunctionDelta ((tcs ++ [b]).get ⟨tcs.length, hlt⟩) fd)) = _
  have hget : (tcs ++ [b]).get ⟨tcs.length, hlt⟩ = b := by
    simp [List.get_eq_getElem, List.getElem_concat_length]
  rw [hget, List.set_append, if_neg (lt_irrefl _)]
  simp

lemma processToolCallDelta_fresh (tcs : List ToolCall) (fd : FunctionDelta) (id : String) :
    processToolCallDelta tcs { index := some tcs.length, id := some id, function := some fd } =
      .ok (tcs ++ [applyFunctionDelta (builtCall id "" "") fd]) := by
  have hlt : tcs.length < (tcs ++ [builtCall id "" ""]).length := by simp
  rw [processToolCallDelta_set tcs
        { index := some tcs.length, id := some id, function := some fd }
        fd rfl (tcs ++ [builtCall id "" ""]) (by simp) hlt]
  show Except.ok ((tcs ++ [builtCall id "" ""]).set tcs.length
      (applyFunctionDelta ((tcs ++ [builtCall id "" ""]).get ⟨tcs.length, hlt⟩) fd)) = _
  have hget : (tcs ++ [builtCall id "" ""]).get ⟨tcs.length, hlt⟩ = builtCall id "" "" := by
    simp [List.get_eq_getElem, List.getElem_concat_length]
  rw [hget, List.set_append, if_neg (lt_irrefl _)]
  simp

lemma processDelta_argDelta (fc fr : String) (tcs : List ToolCall) (b : ToolCall) (p : String) :
    processDelta { full_content := fc, full_reasoning := fr, tool_calls := tcs ++ [b] }
        (argDelta tcs.length p) =
      .ok { full_content := fc, full_reasoning := fr,
            tool_calls := tcs ++ [applyFunctionDelta b { name := none, arguments := some p }] } := by
  simp only [processDelta, argDelta, applyReasoningDelta, applyContentDelta]
  rw [if_pos (List.cons_ne_nil _ _), List.foldlM_cons, processToolCallDelta_last,
      exceptOkBind, List.foldlM_nil]
  rfl

lemma processDelta_headCallDelta (fc fr : String) (tcs : List ToolCall) (id name : String) :
    processDelta { full_content := fc, full_reasoning := fr, tool_calls := tcs }
        (headCallDelta tcs.length id name) =
      .ok { full_content := fc, full_reasoning := fr,
            tool_calls := tcs ++ [builtCall id name ""] } := by
  simp only [processDelta, headCallDelta, applyReasoningDelta, applyContentDelta]
  rw [if_pos (List.cons_ne_nil _ _), List.foldlM_cons, processToolCallDelta_fresh,
      exceptOkBind, List.foldlM_nil]
  have happ : applyFunctionDelta (builtCall id "" "") { name := some name, arguments := none } =
      builtCall id name "" := by
    by_cases hn : name = ""
    · subst hn; rfl
    · simp [applyFunctionDelta, builtCall, hn]
  rw [happ]
  rfl

lemma foldlM_argDeltas (ps : List String) :
    ∀ (fc fr : String) (tcs : List ToolCall) (b : ToolCall),
      List.foldlM processDelta
          { full_content := fc, full_reasoning := fr, tool_calls := tcs ++ [b] }
          (ps.map (argDelta tcs.length)) =
        .ok { full_content := fc, full_reasoning := fr,
              tool_calls := tcs ++ [{ b with function :=
                { b.function with arguments := ps.foldl (· ++ ·) b.function.arguments } }] } := by
  induction ps with
  | nil => intro fc fr tcs b; rfl
  | cons p ps ih =>
      intro fc fr tcs b
      rw [List.map_cons, List.foldlM_cons, processDelta_argDelta, exceptOkBind]
      have happ : applyFunctionDelta b { name := none, arguments := some p } =
          { b with function := { b.function with arguments := b.function.arguments ++ p } } := by
        by_cases hp : p = ""
        · subst hp
          simp [applyFunctionDelta, String.append_empty]
        · simp [applyFunctionDelta, hp]
      rw [happ, ih, List.foldl_cons]

lemma foldlM_callDeltas (fc fr : String) (tcs : List ToolCall) (id name : String)
    (ps : List String) :
    List.foldlM processDelta { full_content := fc, full_reasoning := fr, tool_calls := tcs }
        (callDeltas tcs.length id name ps) =
      .ok { full_content := fc, full_reasoning := fr,
            tool_calls := tcs ++ [builtCall id name (concatL ps)] } := by
  rw [callDeltas, List.foldlM_cons, processDelta_headCallDelta, exceptOkBind, foldlM_argDeltas]
  rfl

lemma foldlM_callsDeltas (calls : List (String × String × List String)) :
    ∀ (fc fr : String) (tcs : List ToolCall),
      List.foldlM processDelta { full_content := fc, full_reasoning := fr, tool_calls := tcs }
          (callsDeltas tcs.length calls) =
        .ok { full_content := fc, full_reasoning := fr,
              tool_calls := tcs ++ calls.map finalToolCall } := by
  induction calls with
  | nil =>
      intro fc fr tcs
      simp only [callsDeltas, List.map_nil, List.append_nil, List.foldlM_nil]
      rfl
  | cons c rest ih =>
      intro fc fr tcs
      obtain ⟨id, name, ps⟩ := c
      rw [callsDeltas, List.foldlM_append, foldlM_callDeltas, exceptOkBind]
      have hlen : tcs.length + 1 = (tcs ++ [builtCall id name (concatL ps)]).length := by
        simp
      rw [hlen, ih]
      simp [finalToolCall, builtCall, List.append_assoc]

/-- **C2.** For every fixed backend output — reasoning pieces `rs`,
content pieces `cs`, and calls `(id, name, argument pieces)` — streaming
it at any granularity assembles to exactly the concatenated reasoning,
the concatenated content (kept in separate accumulators) and the
finalized per-call records whose arguments are the concatenation of
their pieces: the result depends only on the concatenations, hence is
independent of the chunking. -/
theorem assemble_chunking_invariant (rs cs : List String)
    (calls : List (String × String × List String)) :
    assembleStream (chunkedDeltas rs cs calls) =
      .ok { full_content := concatL cs, full_reasoning := concatL rs,
            tool_calls := calls.map finalToolCall } := by
  rw [assembleStream, chunkedDeltas, List.foldlM_append, List.foldlM_append,
      foldlM_reasoningDeltas, exceptOkBind, foldlM_contentDeltas, exceptOkBind]
  show List.foldlM processDelta
      { full_content := List.foldl (· ++ ·) "" cs,
        full_reasoning := List.foldl (· ++ ·) "" rs,
        tool_calls := ([] : List ToolCall) }
      (callsDeltas ([] : List ToolCall).length calls) = _
  rw [foldlM_callsDeltas]
  rfl

/-! ### Tool executor claims (C5, C6) and loop exit (C9) -/

lemma process_tool_calls_fst (jsonParse : String → Option Args)
    (tool_map : String → Option Capability) (tcs : List ToolCall) :
    ∀ u : Bool, (process_tool_calls jsonParse tool_map tcs u).1 =
      tcs.map (toolMessage jsonParse tool_map) := by
  induction tcs with
  | nil => intro u; rfl
  | cons tc rest ih =>
      intro u
      simp only [process_tool_calls, List.map_cons]
      rw [ih]

lemma process_tool_calls_snd (jsonParse : String → Option Args)
    (tool_map : String → Option Capability) (tcs : List ToolCall) :
    ∀ u : Bool, (process_tool_calls jsonParse tool_map tcs u).2 =
      (u || tcs.any fun tc => tc.function.name == "run_todo") := by
  induction tcs with
  | nil => intro u; simp [process_tool_calls]
  | cons tc rest ih =>
      intro u
      simp only [process_tool_calls, List.any_cons]
      rw [ih, Bool.or_assoc]

/-- **C5.** Tool messages are produced one per call in declaration
order; a call whose name does not resolve in the registry yields the
literal tool-result text `"Error: Tool {name} not found"` as an
ordinary tool message (processing continues); in particular the
two-call response `get_real_time`/`unknown_tool` yields exactly two tool
messages in that order, the second carrying the literal error text. -/
theorem unknown_tool_reported_in_order (jsonParse : String → Option Args)
    (tool_map : String → Option Capability) (u : Bool) (id1 a1 id2 a2 : String)
    (hknown : (tool_map "get_real_time").isSome = true)
    (hmiss : tool_map "unknown_tool" = none) :
    (∀ (tcs : List ToolCall) (u2 : Bool),
        (process_tool_calls jsonParse tool_map tcs u2).1 =
          tcs.map (toolMessage jsonParse tool_map)) ∧
    (∀ tc : ToolCall, tool_map tc.function.name = none →
        toolMessage jsonParse tool_map tc =
          { role := "tool", content := "Error: Tool " ++ tc.function.name ++ " not found",
            reasoning_content := none, tool_calls := none, tool_call_id := some tc.id }) ∧
    (∃ s : String,
        (process_tool_calls jsonParse tool_map
            [builtCall id1 "get_real_time" a1, builtCall id2 "unknown_tool" a2] u).1 =
          [{ role := "tool", content := s, reasoning_content := none, tool_calls := none,
             tool_call_id := some id1 },
           { role := "tool", content := "Error: Tool unknown_tool not found",
             reasoning_content := none, tool_calls := none, tool_call_id := some id2 }]) := by
  refine ⟨fun tcs u2 => process_tool_calls_fst jsonParse tool_map tcs u2, ?_, ?_⟩
  · intro tc h
    simp [toolMessage, execute_tool, h]
  · refine ⟨execute_tool tool_map "get_real_time"
      ((jsonParse (rawArgs (builtCall id1 "get_real_time" a1))).getD []), ?_⟩
    rw [process_tool_calls_fst]
    simp [toolMessage, execute_tool, hmiss, builtCall]

/-- Witness for C5 with a concrete parser and registry. -/
theorem unknown_tool_reported_in_order_witness :
    ∃ s : String,
      (process_tool_calls (fun _ => some [])
          (fun n => if n = "get_real_time" then
                      some (fun _ => ToolOutcome.ret (PyValue.str "2026-10-12T00:00:00"))
                    else none)
          [builtCall "id1" "get_real_time" "\x7b\x7d",
           builtCall "id2" "unknown_tool" "\x7b\x7d"] false).1 =
        [{ role := "tool", content := s, reasoning_content := none, tool_calls := none,
           tool_call_id := some "id1" },
         { role := "tool", content := "Error: Tool unknown_tool not found",
           reasoning_content := none, tool_calls := none, tool_call_id := some "id2" }] :=
  (unknown_tool_reported_in_order (fun _ => some [])
    (fun n => if n = "get_real_time" then
                some (fun _ => ToolOutcome.ret (PyValue.str "2026-10-12T00:00:00"))
              else none)
    false "id1" "\x7b\x7d" "id2" "\x7b\x7d" rfl rfl).2.2

/-- **C6.** The executor is total and never raises: one tool message per
call; an arguments string the parser rejects is replaced by the empty
mapping and execution continues; an exception raised by the capability
becomes the literal `"Error executing {name}: {message}"` text; a
non-string result is returned as its JSON encoding. -/
theorem executor_never_raises (jsonParse : String → Option Args)
    (tool_map : String → Option Capability) :
    (∀ (tcs : List ToolCall) (u : Bool),
        (process_tool_calls jsonParse tool_map tcs u).1.length = tcs.length) ∧
    (∀ tc : ToolCall, jsonParse (rawArgs tc) = none →
        toolMessage jsonParse tool_map tc =
          { role := "tool", content := execute_tool tool_map tc.function.name [],
            reasoning_content := none, tool_calls := none, tool_call_id := some tc.id }) ∧
    (∀ (tool_name : String) (args : Args) (f : Capability) (e : String),
        tool_map tool_name = some f → f args = .exn e →
        execute_tool tool_map tool_name args = "Error executing " ++ tool_name ++ ": " ++ e) ∧
    (∀ (tool_name : String) (args : Args) (f : Capability) (j : String),
        tool_map tool_name = some f → f args = .ret (.other j) →
        execute_tool tool_map tool_name args = j) := by
  refine ⟨?_, ?_, ?_, ?_⟩
  · intro tcs u
    rw [process_tool_calls_fst, List.length_map]
  · intro tc h
    simp [toolMessage, h]
  · intro tool_name args f e hf hx
    simp [execute_tool, hf, hx]
  · intro tool_name args f j hf hx
    simp [execute_tool, hf, hx]

/-- Witness for C6: a failing parser falls back to the empty mapping,
and a raising capability is converted to error text. -/
theorem executor_never_raises_witness :
    toolMessage (fun _ => none) (fun _ => none) (builtCall "id9" "run_read" "not json") =
      { role := "tool",
        content := execute_tool (fun _ => none) "run_read" [],
        reasoning_content := none, tool_calls := none, tool_call_id := some "id9" } ∧
    execute_tool (fun n => if n = "run_bash" then
        some (fun _ => ToolOutcome.exn "boom") else none) "run_bash" [] =
      "Error executing run_bash: boom" :=
  ⟨(executor_never_raises (fun _ => none) (fun _ => none)).2.1
      (builtCall "id9" "run_read" "not json") rfl,
   (executor_never_raises (fun _ => some [])
      (fun n => if n = "run_bash" then some (fun _ => ToolOutcome.exn "boom") else none)).2.2.1
      "run_bash" [] (fun _ => ToolOutcome.exn "boom") "boom" rfl rfl⟩

/-- **C9.** When the model's response carries zero tool calls the
non-streaming loop appends the assistant message, updates the
rounds-without-todo counter (0 when any call this turn was `run_todo`,
else incremented), and returns after that single backend response —
whatever further responses the backend could have produced are never
requested.  The `used_todo` flag returned by tool processing is set
exactly when the flag was already set or some processed call is named
`run_todo`. -/
theorem no_tool_calls_single_exit (jsonParse : String → Option Args)
    (tool_map : String → Option Capability) :
    (∀ (rm : ResponseMessage) (rest : List ResponseMessage) (messages : List Message)
        (used : Bool) (rounds : Nat),
        orEmptyList rm.tool_calls = [] →
        response_loop_non_streaming jsonParse tool_map (rm :: rest) messages used rounds =
          some (messages ++ [assistant_message (orEmptyStr rm.content)
                  (orEmptyStr rm.reasoning_content) []],
                used, if used then 0 else rounds + 1)) ∧
    (∀ (tcs : List ToolCall) (u : Bool),
        (process_tool_calls jsonParse tool_map tcs u).2 =
          (u || tcs.any fun tc => tc.function.name == "run_todo")) := by
  constructor
  · intro rm rest messages used rounds h
    simp [response_loop_non_streaming, h, update_rounds_counter]
  · exact fun tcs u => process_tool_calls_snd jsonParse tool_map tcs u

/-- Witness for C9: a single zero-tool-call response exits at once with
the counter incremented, regardless of the pending second response. -/
theorem no_tool_calls_single_exit_witness :
    response_loop_non_streaming (fun _ => some []) (fun _ => none)
        [{ content := some "hi", reasoning_content := none, tool_calls := none },
         { content := some "never requested", reasoning_content := none, tool_calls := none }]
        [] false 3 =
      some ([assistant_message "hi" "" []], false, 4) :=
  (no_tool_calls_single_exit (fun _ => some []) (fun _ => none)).1
    { content := some "hi", reasoning_content := none, tool_calls := none }
    [{ content := some "never requested", reasoning_content := none, tool_calls := none }]
    [] false 3 rfl

/-! ### Reasoner history stripping (C10) and transport equivalence (C8) -/

lemma strip_reasoning_eq (history : List Message) :
    strip_reasoning_from_history history =
      history.map fun m => { m with reasoning_content := none } := by
  cases history with
  | nil => rfl
  | cons m t =>
      simp only [strip_reasoning_from_history, List.isEmpty_cons, Bool.false_eq_true,
        if_false]
      apply List.map_congr_left
      intro a _
      cases ha : a.reasoning_content
      · cases a; simp_all
      · simp [ha]

/-- **C10.** When the configured model name contains `"reasoner"`
case-insensitively, `response_loop` uses a copy of the caller-supplied
history with the `reasoning_content` key removed from every message —
order, `role`, `content`, `tool_calls` and `tool_call_id` untouched —
before appending the user message; for any other model name the history
is used unmodified. -/
theorem reasoner_history_strip (model : Option String) (user_input : String)
    (history : List Message) :
    (is_reasoner model = true →
        response_loop_setup model user_input history =
          (history.map fun m => { m with reasoning_content := none }) ++
            [{ role := "user", content := user_input, reasoning_content := none,
               tool_calls := none, tool_call_id := none }]) ∧
    (is_reasoner model = false →
        response_loop_setup model user_input history =
          history ++ [{ role := "user", content := user_input, reasoning_content := none,
                        tool_calls := none, tool_call_id := none }]) := by
  constructor
  · intro h
    simp [response_loop_setup, h, strip_reasoning_eq]
  · intro h
    simp [response_loop_setup, h]

/-- Witness for C10: the DeepSeek reasoner model strips the reasoning
key from a concrete one-message history, while a chat model leaves a
history untouched. -/
theorem reasoner_history_strip_witness :
    response_loop_setup (some "deepseek-reasoner") "hello"
        [{ role := "assistant", content := "prev", reasoning_content := some "thinking",
           tool_calls := none, tool_call_id := none }] =
      [{ role := "assistant", content := "prev", reasoning_content := none,
         tool_calls := none, tool_call_id := none },
       { role := "user", content := "hello", reasoning_content := none,
         tool_calls := none, tool_call_id := none }] ∧
    response_loop_setup (some "deepseek-chat") "hello"
        [{ role := "assistant", content := "prev", reasoning_content := some "thinking",
           tool_calls := none, tool_call_id := none }] =
      [{ role := "assistant", content := "prev", reasoning_content := some "thinking",
         tool_calls := none, tool_call_id := none },
       { role := "user", content := "hello", reasoning_content := none,
         tool_calls := none, tool_call_id := none }] :=
  ⟨(reasoner_history_strip (some "deepseek-reasoner") "hello" _).1 (by decide),
   (reasoner_history_strip (some "deepseek-chat") "hello" _).2 (by decide)⟩

/-- A delta sequence assembles to the same normalized output as a batch
response message: same content (`x or ""`), same reasoning, same
finalized tool calls (`x or []`). -/
def AssemblesTo (deltas : List Delta) (rm : ResponseMessage) : Prop :=
  assembleStream deltas =
    .ok { full_content := orEmptyStr rm.content,
          full_reasoning := orEmptyStr rm.reasoning_content,
          tool_calls := orEmptyList rm.tool_calls }

/-- **C8.** When each streamed round assembles to the corresponding
batch response, the streaming loop and the non-streaming loop produce
identical results from any starting conversation, flag and counter: the
same assistant message each round (content always present, reasoning and
tool_calls attached exactly when non-empty) followed by the same tool
messages in declaration order. -/
theorem streaming_batch_equivalence (jsonParse : String → Option Args)
    (tool_map : String → Option Capability) (batches : List (List Delta))
    (responses : List ResponseMessage)
    (hcorr : List.Forall₂ AssemblesTo batches responses) :
    ∀ (messages : List Message) (used : Bool) (rounds : Nat),
      response_loop_streaming jsonParse tool_map batches messages used rounds =
        .ok (response_loop_non_streaming jsonParse tool_map responses messages used rounds) := by
  induction hcorr with
  | nil => intro messages used rounds; rfl
  | cons hab hrest ih =>
      intro messages used rounds
      rename_i deltas rm batches2 responses2
      rw [response_loop_streaming, response_loop_non_streaming, hab]
      by_cases htc : orEmptyList rm.tool_calls = []
      · simp only [htc, if_pos rfl]
        rfl
      · simp only [if_neg htc]
        exact ih _ _ _

/-- Witness for C8: a concrete two-round correspondence — a first round
carrying one tool call and a second round with none — runs to the same
conversation in both transports. -/
theorem streaming_batch_equivalence_witness :
    response_loop_streaming (fun _ => some []) (fun _ => none)
        [[{ reasoning_content := none, content := some "a",
            tool_calls := some [{ index := some 0, id := some "c1",
                                  function := some { name := some "run_bash",
                                                     arguments := some "\x7b\x7d" } }] }],
         [{ reasoning_content := none, content := some "done", tool_calls := none }]]
        [] false 0 =
      .ok (response_loop_non_streaming (fun _ => some [])
            (fun _ => none)
            [{ content := some "a", reasoning_content := none,
               tool_calls := some [builtCall "c1" "run_bash" "\x7b\x7d"] },
             { content := some "done", reasoning_content := none, tool_calls := none }]
            [] false 0) :=
  streaming_batch_equivalence (fun _ => some []) (fun _ => none) _ _
    (List.Forall₂.cons (by exact rfl) (List.Forall₂.cons (by exact rfl) List.Forall₂.nil))
    [] false 0

/-! ### Todo-list validation and invariant (C7) -/

/-- Number of submitted items whose (normalized) status is
`in_progress`. -/
def inProgressCountIn (items : List TodoItemIn) : Nat :=
  (items.filter fun it => pyLower (it.status.getD "pending") = "in_progress").length

/-- A submitted item the validator rejects: empty stripped content,
empty stripped activeForm, or a status outside the three-value enum. -/
def badTodoItem (it : TodoItemIn) : Prop :=
  pyStrip (it.content.getD "") = "" ∨
  pyStrip (it.activeForm.getD "") = "" ∨
  (pyLower (it.status.getD "pending") ≠ "pending" ∧
   pyLower (it.status.getD "pending") ≠ "in_progress" ∧
   pyLower (it.status.getD "pending") ≠ "completed")

instance (it : TodoItemIn) : Decidable (badTodoItem it) := by
  unfold badTodoItem; infer_instance

/-- A stored item as the validator guarantees it. -/
def goodTodoItem (v : TodoItem) : Prop :=
  v.content ≠ "" ∧ v.activeForm ≠ "" ∧
  (v.status = "pending" ∨ v.status = "in_progress" ∨ v.status = "completed")

/-- The stored-list invariant of the claim: at most 20 items, at most
one `in_progress`, all fields validated. -/
def TodoInv (l : List TodoItem) : Prop :=
  l.length ≤ 20 ∧ (l.filter fun v => v.status = "in_progress").length ≤ 1 ∧
  ∀ v ∈ l, goodTodoItem v

lemma exceptErrorBind {α β : Type} (e : String) (f : α → Except String β) :
    (Except.error e >>= f) = Except.error e := rfl

lemma validateTodoItem_ok {i : Nat} {it : TodoItemIn} {v : TodoItem}
    (h : validateTodoItem i it = .ok v) :
    v.content = pyStrip (it.content.getD "") ∧
    v.status = pyLower (it.status.getD "pending") ∧
    v.activeForm = pyStrip (it.activeForm.getD "") ∧
    goodTodoItem v ∧ ¬ badTodoItem it := by
  simp only [validateTodoItem] at h
  by_cases h1 : pyStrip (it.content.getD "") = ""
  · rw [if_pos h1] at h; exact Except.noConfusion h
  rw [if_neg h1] at h
  by_cases h2 : pyLower (it.status.getD "pending") ≠ "pending" ∧
      pyLower (it.status.getD "pending") ≠ "in_progress" ∧
      pyLower (it.status.getD "pending") ≠ "completed"
  · rw [if_pos h2] at h; exact Except.noConfusion h
  rw [if_neg h2] at h
  by_cases h3 : pyStrip (it.activeForm.getD "") = ""
  · rw [if_pos h3] at h; exact Except.noConfusion h
  rw [if_neg h3] at h
  simp only [Except.ok.injEq] at h
  subst h
  refine ⟨rfl, rfl, rfl, ⟨h1, h3, ?_⟩, ?_⟩
  · simp only [not_and_or, not_not] at h2
    tauto
  · simp only [badTodoItem, not_or]
    exact ⟨h1, h3, h2⟩

lemma validateTodoItems_ok (items : List TodoItemIn) :
    ∀ (i : Nat) (vs : List TodoItem) (c : Nat),
      validateTodoItems i items = .ok (vs, c) →
      vs.length = items.length ∧
      c = inProgressCountIn items ∧
      c = (vs.filter fun v => v.status = "in_progress").length ∧
      (∀ v ∈ vs, goodTodoItem v) ∧
      (∀ it ∈ items, ¬ badTodoItem it) := by
  induction items with
  | nil =>
      intro i vs c h
      simp only [validateTodoItems, Except.ok.injEq, Prod.mk.injEq] at h
      obtain ⟨h1, h2⟩ := h
      subst h1; subst h2
      simp [inProgressCountIn]
  | cons it rest ih =>
      intro i vs c h
      simp only [validateTodoItems] at h
      rcases hv : validateTodoItem i it with e | v0
      · rw [hv, exceptErrorBind] at h; exact Except.noConfusion h
      · rw [hv, exceptOkBind] at h
        rcases hr : validateTodoItems (i + 1) rest with e | p
        · rw [hr, exceptErrorBind] at h; exact Except.noConfusion h
        · obtain ⟨vs0, c0⟩ := p
          rw [hr, exceptOkBind] at h
          simp only [Except.ok.injEq, Prod.mk.injEq] at h
          obtain ⟨h1, h2⟩ := h
          subst h1; subst h2
          obtain ⟨hlen, hcin, hcvs, hgood, hbad⟩ := ih (i + 1) vs0 c0 hr
          obtain ⟨hc, hs, ha, hg, hb⟩ := validateTodoItem_ok hv
          refine ⟨by simp [hlen], ?_, ?_, ?_, ?_⟩
          · rw [hcin]
            simp only [inProgressCountIn, List.filter_cons]
            by_cases hip : pyLower (it.status.getD "pending") = "in_progress"
            · simp only [hs, hip, decide_True, decide_False, Bool.true_eq, Bool.false_eq,
                if_true, if_false, ite_true, ite_false, List.length_cons]
              omega
            · simp only [hs, hip, decide_True, decide_False, Bool.false_eq_true,
                if_true, if_false, ite_true, ite_false]
              omega
          · simp only [List.filter_cons]
            by_cases hip : v0.status = "in_progress"
            · simp only [hip, decide_True, if_true, ite_true, List.length_cons, hcvs]
              omega
            · simp only [hip, decide_False, Bool.false_eq_true, if_false, ite_false, hcvs]
              omega
          · intro v hvmem
            rcases List.mem_cons.mp hvmem with hm | hm
            · subst hm; exact hg
            · exact hgood v hm
          · intro x hx
            rcases List.mem_cons.mp hx with hm | hm
            · subst hm; exact hb
            · exact hbad x hm

lemma todoUpdate_ok_inv {items : List TodoItemIn} {v : List TodoItem} {s : String}
    (h : todoUpdate items = .ok (v, s)) :
    validateTodoItems 0 items = .ok (v, (v.filter fun x => x.status = "in_progress").length) ∧
    v.length ≤ 20 ∧ (v.filter fun x => x.status = "in_progress").length ≤ 1 := by
  simp only [todoUpdate] at h
  rcases hv : validateTodoItems 0 items with e | p
  · rw [hv, exceptErrorBind] at h; exact Except.noConfusion h
  · obtain ⟨vs, c⟩ := p
    rw [hv, exceptOkBind] at h
    by_cases h1 : vs.length > 20
    · rw [if_pos h1] at h; exact Except.noConfusion h
    rw [if_neg h1] at h
    by_cases h2 : c > 1
    · rw [if_pos h2] at h; exact Except.noConfusion h
    rw [if_neg h2] at h
    simp only [Except.ok.injEq, Prod.mk.injEq] at h
    obtain ⟨hveq, _⟩ := h
    subst hveq
    obtain ⟨_, _, hcvs, _, _⟩ := validateTodoItems_ok items 0 vs c hv
    rw [hcvs] at h2
    exact ⟨by rw [hcvs], by omega, by omega⟩

/-- **C7.** `TodoManager.update` fails validation whenever the submitted
list has more than 20 items, more than one `in_progress` item, or any
item with empty content, empty activeForm or a status outside the
three-value enum; every failure leaves the previously stored list
untouched; success replaces the stored list wholesale, independently of
what was stored — hence every reachable stored list has at most 20
items, at most one `in_progress` item, and validated fields
throughout. -/
theorem todo_update_validation :
    (∀ items : List TodoItemIn,
        (items.length > 20 ∨ inProgressCountIn items > 1 ∨ ∃ it ∈ items, badTodoItem it) →
        (todoUpdate items).isOk = false) ∧
    (∀ (stored : List TodoItem) (items : List TodoItemIn) (e : String),
        todoUpdate items = .error e → run_todo stored items = (stored, "Error: " ++ e)) ∧
    (∀ (stored stored2 : List TodoItem) (items : List TodoItemIn) (r : List TodoItem × String),
        todoUpdate items = .ok r → run_todo stored items = r ∧ run_todo stored2 items = r) ∧
    (∀ l, TodoReachable l → TodoInv l) := by
  have hA : ∀ items : List TodoItemIn,
      (items.length > 20 ∨ inProgressCountIn items > 1 ∨ ∃ it ∈ items, badTodoItem it) →
      (todoUpdate items).isOk = false := by
    intro items hbad
    rcases hup : todoUpdate items with e | p
    · rfl
    · obtain ⟨v, s⟩ := p
      obtain ⟨hv, hlen20, hc1⟩ := todoUpdate_ok_inv hup
      obtain ⟨hlen, hcin, hcvs, _, hnobad⟩ := validateTodoItems_ok items 0 v _ hv
      rcases hbad with hb | hb | ⟨it, hit, hb⟩
      · omega
      · rw [← hcin] at hb; omega
      · exact absurd hb (hnobad it hit)
  refine ⟨hA, ?_, ?_, ?_⟩
  · intro stored items e h
    simp [run_todo, h]
  · intro stored stored2 items r h
    constructor <;> simp [run_todo, h]
  · intro l hreach
    induction hreach with
    | init => exact ⟨by simp, by simp, by simp⟩
    | step s items _ ih =>
        rcases hup : todoUpdate items with e | p
        · simpa [run_todo, hup] using ih
        · obtain ⟨v, str⟩ := p
          obtain ⟨hv, hlen20, hc1⟩ := todoUpdate_ok_inv hup
          obtain ⟨_, _, _, hgood, _⟩ := validateTodoItems_ok items 0 v _ hv
          simp only [run_todo, hup]
          exact ⟨hlen20, hc1, hgood⟩

/-- Witness for C7: a 21-item submission fails, and a successful empty
update replaces a non-empty stored list wholesale. -/
theorem todo_update_validation_witness :
    (todoUpdate (List.replicate 21
        ({ content := some "A", status := some "pending",
           activeForm := some "B" } : TodoItemIn))).isOk = false ∧
    run_todo [{ content := "old", status := "pending", activeForm := "x" }] [] =
      ([], "\nNo todos.") :=
  ⟨todo_update_validation.1 _ (Or.inl (by simp)),
   (todo_update_validation.2.2.1
      [{ content := "old", status := "pending", activeForm := "x" }] [] []
      ([], "\nNo todos.") rfl).1⟩

end ToyCli
